import Mathlib

/-!
Verification of the core of `crawler.py` (folder-tree-structure-viewer):
the recursive filesystem scan (`FolderTreeView.add_folder_item_recursive`,
`FolderTreeView.populate_tree`), the filter proxy
(`FolderFilterProxyModel.filterAcceptsRow`), check-state propagation
(`FolderTreeView.handle_item_changed`, `FolderTreeView.update_children_checkstate`)
and the clipboard serializer (`FolderTreeView.copy_tree_to_clipboard`,
`FolderTreeView.generate_text_recursive_v2`).

The Qt item model is embedded as a rose tree of `Node`s (one `Node` per
`QStandardItem` row, keeping the column-0 data the code actually reads:
display text, checkable flag, check state, and the error styling applied to
synthetic error-marker items).  The filesystem that a scan observes is
embedded as an `FS` value recording, for every entry, the data the code
queries: its basename, whether it is a directory, whether `stat` succeeds,
and the outcome of `os.scandir` on it.  Python string operations
(`str.lower`, substring `in`, `<=` used by tuple sort keys) are modelled on
`List Char` by code points, matching Python semantics on the ASCII range.
-/

/-- Model of Python's `s.lower()` (as used on names and filter text):
character-wise lower-casing of the code-point sequence. -/
def lowerStr (s : String) : List Char := s.data.map Char.toLower

/-- Model of Python's `<=` on strings (used through tuple comparison in the
`sorted` key): lexicographic comparison of code points. -/
def lexLe : List Char → List Char → Bool
  | [], _ => true
  | _ :: _, [] => false
  | a :: as, b :: bs =>
    if a.toNat < b.toNat then true
    else if b.toNat < a.toNat then false
    else lexLe as bs

/-- Helper for `containsB`: does `n` occur at the very start of `h`? -/
def listPrefixB : List Char → List Char → Bool
  | [], _ => true
  | _ :: _, [] => false
  | a :: as, b :: bs => a == b && listPrefixB as bs

/-- Model of Python's substring test `n in h`. -/
def containsB (n : List Char) : List Char → Bool
  | [] => n.isEmpty
  | b :: bs => listPrefixB n (b :: bs) || containsB n bs

theorem listPrefixB_iff (n h : List Char) : listPrefixB n h = true ↔ n <+: h := by
  induction n generalizing h with
  | nil => simp [listPrefixB]
  | cons a as ih =>
    cases h with
    | nil => simp [listPrefixB]
    | cons b bs => simp [listPrefixB, List.cons_prefix_cons, ih]

theorem containsB_iff (n h : List Char) : containsB n h = true ↔ n <:+: h := by
  induction h with
  | nil => simp [containsB, List.isEmpty_iff]
  | cons b bs ih =>
    simp [containsB, ih, listPrefixB_iff, List.infix_cons_iff]

theorem lexLe_total (a b : List Char) : lexLe a b = true ∨ lexLe b a = true := by
  induction a generalizing b with
  | nil => left; rfl
  | cons x xs ih =>
    cases b with
    | nil => right; rfl
    | cons y ys =>
      rcases Nat.lt_trichotomy x.toNat y.toNat with h | h | h
      · left; simp [lexLe, h]
      · rcases ih ys with h2 | h2
        · left; simp [lexLe, h, h2]
        · right; simp [lexLe, h.symm, h2]
      · right; simp [lexLe, h]

theorem lexLe_trans {a b c : List Char} (h1 : lexLe a b = true) (h2 : lexLe b c = true) :
    lexLe a c = true := by
  induction a generalizing b c with
  | nil => rfl
  | cons x xs ih =>
    cases b with
    | nil => simp [lexLe] at h1
    | cons y ys =>
      cases c with
      | nil => simp [lexLe] at h2
      | cons z zs =>
        simp only [lexLe] at h1 h2 ⊢
        rcases Nat.lt_trichotomy x.toNat y.toNat with hxy | hxy | hxy
        · rcases Nat.lt_trichotomy y.toNat z.toNat with hyz | hyz | hyz
          · simp [show x.toNat < z.toNat from by omega]
          · simp [show x.toNat < z.toNat from by omega]
          · simp [show ¬ y.toNat < z.toNat from by omega, hyz] at h2
        · rcases Nat.lt_trichotomy y.toNat z.toNat with hyz | hyz | hyz
          · simp [show x.toNat < z.toNat from by omega]
          · simp [hxy, Nat.lt_irrefl] at h1
            simp [hyz, Nat.lt_irrefl] at h2
            simp [hxy.trans hyz, Nat.lt_irrefl]
            exact ih h1 h2
          · simp [show ¬ y.toNat < z.toNat from by omega, hyz] at h2
        · simp [show ¬ x.toNat < y.toNat from by omega, hxy] at h1

/-- Outcome of `os.scandir` on a directory in the observed filesystem:
success, `PermissionError` (the `except PermissionError` branch), or any
other exception (the generic `except Exception` branch). -/
inductive ListResult where
  | ok
  | permDenied
  | otherError
deriving DecidableEq, Repr

/-- The filesystem as observed by one scan: for every path the code visits it
records the basename, the success of `os.stat` / `entry.stat` on it, and for
directories the outcome of `os.scandir` together with the entries in the
(arbitrary) order `os.scandir` yields them. -/
inductive FS where
  | file (name : String) (size : Nat) (statOk : Bool)
  | dir (name : String) (statOk : Bool) (entries : List FS) (res : ListResult)

def FS.name : FS → String
  | .file n _ _ => n
  | .dir n _ _ _ => n

/-- Model of `entry.is_dir(follow_symlinks=False)`. -/
def FS.isDir : FS → Bool
  | .file .. => false
  | .dir .. => true

/-- Whether `os.stat(path)` / `entry.stat(follow_symlinks=False)` succeeds. -/
def FS.statOk : FS → Bool
  | .file _ _ s => s
  | .dir _ s _ _ => s

/-- The comparison induced by the sort key
`lambda e: (not e.is_dir(follow_symlinks=False), e.name.lower())` of
`add_folder_item_recursive`: Python compares the tuples lexicographically,
with `False < True`, so directories come first and ties are broken by the
lower-cased name. -/
def entryLEb (a b : FS) : Bool :=
  Nat.blt (if a.isDir then 0 else 1) (if b.isDir then 0 else 1) ||
    ((if a.isDir then (0 : Nat) else 1) == (if b.isDir then 0 else 1) &&
      lexLe (lowerStr a.name) (lowerStr b.name))

/-- Insert an entry into an already sorted run, keeping it before the first
entry it compares `≤` to (this placement makes the sort stable, as Python's
`sorted` is). -/
def orderedInsert (e : FS) : List FS → List FS
  | [] => [e]
  | h :: t => if entryLEb e h then e :: h :: t else h :: orderedInsert e t

/-- Model of `sorted(os.scandir(current_path), key=...)`: a stable sort of the
scandir order by `entryLEb`.  Any stable sort computes the same list, so a
stable insertion sort is used. -/
def sortEntries : List FS → List FS
  | [] => []
  | h :: t => orderedInsert h (sortEntries t)

theorem sizeOf_orderedInsert (e : FS) (l : List FS) :
    sizeOf (orderedInsert e l) = 1 + sizeOf e + sizeOf l := by
  induction l with
  | nil => simp [orderedInsert]
  | cons h t ih =>
    simp only [orderedInsert]
    by_cases hc : entryLEb e h = true
    · simp [hc]
    · simp [hc, ih]
      omega

theorem sizeOf_sortEntries (l : List FS) : sizeOf (sortEntries l) = sizeOf l := by
  induction l with
  | nil => rfl
  | cons h t ih =>
    simp [sortEntries, sizeOf_orderedInsert, ih]

theorem orderedInsert_perm (e : FS) (l : List FS) :
    List.Perm (orderedInsert e l) (e :: l) := by
  induction l with
  | nil => simp [orderedInsert]
  | cons h t ih =>
    simp only [orderedInsert]
    by_cases hc : entryLEb e h = true
    · simp [hc]
    · simp only [hc, if_false]
      exact (ih.cons h).trans (List.Perm.swap e h t)

theorem sortEntries_perm (l : List FS) : List.Perm (sortEntries l) l := by
  induction l with
  | nil => simp [sortEntries]
  | cons h t ih =>
    exact (orderedInsert_perm h (sortEntries t)).trans (ih.cons h)

theorem entryLEb_total (a b : FS) : entryLEb a b = true ∨ entryLEb b a = true := by
  simp only [entryLEb, Bool.or_eq_true, Bool.and_eq_true, Nat.blt_eq, beq_iff_eq]
  rcases Nat.lt_trichotomy (if a.isDir then 0 else 1) (if b.isDir then 0 else 1) with h | h | h
  · exact Or.inl (Or.inl h)
  · rcases lexLe_total (lowerStr a.name) (lowerStr b.name) with h2 | h2
    · exact Or.inl (Or.inr ⟨h, h2⟩)
    · exact Or.inr (Or.inr ⟨h.symm, h2⟩)
  · exact Or.inr (Or.inl h)

theorem entryLEb_trans {a b c : FS} (h1 : entryLEb a b = true) (h2 : entryLEb b c = true) :
    entryLEb a c = true := by
  simp only [entryLEb, Bool.or_eq_true, Bool.and_eq_true, Nat.blt_eq, beq_iff_eq] at h1 h2 ⊢
  rcases h1 with h1 | ⟨h1e, h1s⟩
  · rcases h2 with h2 | ⟨h2e, _⟩
    · exact Or.inl (h1.trans h2)
    · exact Or.inl (h2e ▸ h1)
  · rcases h2 with h2 | ⟨h2e, h2s⟩
    · exact Or.inl (h1e ▸ h2)
    · exact Or.inr ⟨h1e.trans h2e, lexLe_trans h1s h2s⟩

theorem orderedInsert_pairwise (e : FS) (l : List FS)
    (h : List.Pairwise (fun a b => entryLEb a b = true) l) :
    List.Pairwise (fun a b => entryLEb a b = true) (orderedInsert e l) := by
  induction l with
  | nil => simp [orderedInsert]
  | cons x t ih =>
    rcases List.pairwise_cons.mp h with ⟨hx, ht⟩
    simp only [orderedInsert]
    by_cases hc : entryLEb e x = true
    · rw [if_pos hc]
      refine List.pairwise_cons.mpr ⟨?_, h⟩
      intro y hy
      rcases hy with _ | hy
      · exact hc
      · exact entryLEb_trans hc (hx y (by assumption))
    · have hxe : entryLEb x e = true := by
        rcases entryLEb_total e x with h1 | h1
        · exact absurd h1 hc
        · exact h1
      rw [if_neg hc]
      refine List.pairwise_cons.mpr ⟨?_, ih ht⟩
      intro y hy
      have : y = e ∨ y ∈ t := by
        have := (orderedInsert_perm e t).mem_iff.mp hy
        simpa using this
      rcases this with rfl | hyt
      · exact hxe
      · exact hx y hyt

theorem sortEntries_pairwise (l : List FS) :
    List.Pairwise (fun a b => entryLEb a b = true) (sortEntries l) := by
  induction l with
  | nil => simp [sortEntries]
  | cons h t ih => exact orderedInsert_pairwise h (sortEntries t) ih

/-! One row of the `QStandardItemModel` tree, keeping the column-0 data the
code reads: the display text (`item.text()`), `isCheckable()`, whether
`checkState() == Checked`, and whether the item is one of the synthetic
error markers (styled red / non-checkable by `add_folder_item_recursive`).
`children` are the item's child rows in model order.  (The size and date
columns are presentation-only: no modelled operation reads them.) -/
mutual
inductive Node where
  | mk (name : String) (checkable checked err : Bool) (children : NodeList)
inductive NodeList where
  | nil
  | cons (hd : Node) (tl : NodeList)
end

def Node.name : Node → String
  | .mk s _ _ _ _ => s

def Node.checkable : Node → Bool
  | .mk _ ca _ _ _ => ca

def Node.checked : Node → Bool
  | .mk _ _ ck _ _ => ck

def Node.err : Node → Bool
  | .mk _ _ _ er _ => er

def Node.children : Node → NodeList
  | .mk _ _ _ _ cs => cs

def NodeList.toList : NodeList → List Node
  | .nil => []
  | .cons c t => c :: t.toList

def NodeList.length : NodeList → Nat
  | .nil => 0
  | .cons _ t => t.length + 1

def NodeList.get? : NodeList → Nat → Option Node
  | .nil, _ => none
  | .cons c _, 0 => some c
  | .cons _ t, i + 1 => t.get? i

def NodeList.setAt : NodeList → Nat → Node → NodeList
  | .nil, _, _ => .nil
  | .cons _ t, 0, x => .cons x t
  | .cons c t, i + 1, x => .cons c (t.setAt i x)

mutual
def Node.deq : (a b : Node) → Decidable (a = b)
  | .mk n1 a1 b1 c1 l1, .mk n2 a2 b2 c2 l2 =>
    match decEq n1 n2, decEq a1 a2, decEq b1 b2, decEq c1 c2, NodeList.deq l1 l2 with
    | isTrue h1, isTrue h2, isTrue h3, isTrue h4, isTrue h5 =>
      isTrue (by rw [h1, h2, h3, h4, h5])
    | isFalse h, _, _, _, _ => isFalse (by simp; intro h1 _ _ _ _; exact absurd h1 h)
    | _, isFalse h, _, _, _ => isFalse (by simp; intro _ h1 _ _ _; exact absurd h1 h)
    | _, _, isFalse h, _, _ => isFalse (by simp; intro _ _ h1 _ _; exact absurd h1 h)
    | _, _, _, isFalse h, _ => isFalse (by simp; intro _ _ _ h1 _; exact absurd h1 h)
    | _, _, _, _, isFalse h => isFalse (by simp; intro _ _ _ _ h1; exact absurd h1 h)
def NodeList.deq : (a b : NodeList) → Decidable (a = b)
  | .nil, .nil => isTrue rfl
  | .nil, .cons _ _ => isFalse (by intro h; exact NodeList.noConfusion h)
  | .cons _ _, .nil => isFalse (by intro h; exact NodeList.noConfusion h)
  | .cons h1 t1, .cons h2 t2 =>
    match Node.deq h1 h2, NodeList.deq t1 t2 with
    | isTrue e1, isTrue e2 => isTrue (by rw [e1, e2])
    | isFalse h, _ => isFalse (by simp; intro h1 _; exact absurd h1 h)
    | _, isFalse h => isFalse (by simp; intro _ h1; exact absurd h1 h)
end

instance : DecidableEq Node := Node.deq
instance : DecidableEq NodeList := NodeList.deq

/-! All nodes of a subtree, the root first (pre-order). -/
mutual
def Node.subNodes : Node → List Node
  | .mk nm ca ck er cs => .mk nm ca ck er cs :: NodeList.subAll cs
def NodeList.subAll : NodeList → List Node
  | .nil => []
  | .cons c t => c.subNodes ++ t.subAll
end

/-- The proper descendants of a node (its subtree without the node itself). -/
def Node.properDesc (n : Node) : List Node := NodeList.subAll n.children

/-! The structural invariant the scanner establishes: a non-checkable node
(an error marker) has no children. -/
mutual
def errLeafB : Node → Bool
  | .mk _ ca _ _ cs => (ca || (cs.length == 0)) && errLeafL cs
def errLeafL : NodeList → Bool
  | .nil => true
  | .cons c t => errLeafB c && errLeafL t
end

/-! `FolderTreeView.add_folder_item_recursive` and its entry loop.

`addFolderItem current` models one call `add_folder_item_recursive(current_path,
parent_item)` and returns the single top row it appends to `parent_item`:
if `os.stat(current_path)` raises, a non-checkable red `"... [Access Error]"`
row is appended and the function returns without recursing; otherwise a
checkable, checked row is appended and its children are produced by the
contents scan.

`scanContents` models the `os.scandir` part: on a file, `os.scandir` raises
`NotADirectoryError`, caught by the generic `except Exception` handler which
appends the `"[Error Scanning Contents]"` marker; on a directory it either
sorts the entries and runs the entry loop (`scanL`), or appends the
`"[Contents Hidden - Permission Denied]"` marker (`except PermissionError`),
or the generic `"[Error Scanning Contents]"` marker.

`scanEntry` models one iteration of the entry loop: if `entry.stat` raises
`OSError` a non-checkable `"... [OS Error]"` row is appended; a directory
entry gets its own checkable row *and then* `add_folder_item_recursive` is
called with that row as parent, which appends a second row for the same
directory underneath it (so every non-root directory appears twice, nested);
a file entry gets a single checkable row. -/
mutual
def addFolderItem (e : FS) : Node :=
  if e.statOk = false then
    .mk (e.name ++ " [Access Error]") false false true .nil
  else
    .mk e.name true true false (scanContents e)
termination_by (sizeOf e, 1)
decreasing_by simp_wf; omega

def scanContents (e : FS) : NodeList :=
  match e with
  | .file .. => .cons (.mk "[Error Scanning Contents]" false false true .nil) .nil
  | .dir _ _ entries res =>
    match res with
    | .ok => scanL (sortEntries entries)
    | .permDenied =>
      .cons (.mk "[Contents Hidden - Permission Denied]" false false true .nil) .nil
    | .otherError => .cons (.mk "[Error Scanning Contents]" false false true .nil) .nil
termination_by (sizeOf e, 0)
decreasing_by simp_wf; simp [sizeOf_sortEntries]; omega

def scanL : List FS → NodeList
  | [] => .nil
  | e :: rest => .cons (scanEntry e) (scanL rest)
termination_by l => (sizeOf l, 3)
decreasing_by
  · simp_wf
    exact Prod.Lex.left _ _ (by omega)
  · simp_wf
    exact Prod.Lex.left _ _ (by omega)

def scanEntry (e : FS) : Node :=
  if e.statOk = false then .mk (e.name ++ " [OS Error]") false false true .nil
  else if e.isDir then .mk e.name true true false (.cons (addFolderItem e) .nil)
  else .mk e.name true true false .nil
termination_by (sizeOf e, 2)
decreasing_by simp_wf; omega
end

/-- `FolderTreeView.populate_tree`: clears the model, calls
`add_folder_item_recursive(root_folder, invisible_root)` and returns the
success flag together with the top-level rows.  Every filesystem failure is
caught *inside* `add_folder_item_recursive` (root stat failures included),
so the `except Exception` branch of `populate_tree` is unreachable for
filesystem errors and the flag is always `True`. -/
def populate_tree (root : FS) : Bool × NodeList :=
  (true, .cons (addFolderItem root) .nil)

/-! `FolderFilterProxyModel`.  `set_filter_text` stores `text.lower()` in
`_filter_text`; `filterAcceptsRow` accepts everything when the stored text is
empty, otherwise accepts a row if its display text contains the stored text
(Python `in` on the lowered text) — skipping the self match when the display
text is empty/falsy — or, recursively, if any child row is accepted.
`q` below is the stored, already lowered, filter text. -/
mutual
def filterAccepts (q : List Char) : Node → Bool
  | .mk nm _ _ _ cs =>
    if q.isEmpty then true
    else if (!(nm == "")) && containsB q (lowerStr nm) then true
    else anyAccepts q cs
def anyAccepts (q : List Char) : NodeList → Bool
  | .nil => false
  | .cons c t => filterAccepts q c || anyAccepts q t
end

/-- `FolderFilterProxyModel.set_filter_text`: the proxy stores the lowered
filter text. -/
def set_filter_text (text : String) : List Char := lowerStr text

/-- Visibility of a node under a raw (user-typed) query: `set_filter_text`
followed by `filterAcceptsRow`. -/
def is_visible (query : String) (n : Node) : Bool :=
  filterAccepts (set_filter_text query) n

/-! `FolderTreeView.handle_item_changed` together with
`FolderTreeView.update_children_checkstate`, packaged as one logical
`set_checked` operation: the user's click sets the item's own check state
(only checkable items have a checkbox), then the handler — with re-entrant
`itemChanged` notifications suppressed by `_block_item_changed_signal` —
recursively forces the same state onto every checkable child, recursing only
below checkable children, so a non-checkable child and its subtree are left
untouched. -/
mutual
def set_checked (n : Node) (v : Bool) : Node :=
  match n with
  | .mk nm ca ck er cs =>
    if ca then .mk nm ca v er (updateL cs v) else .mk nm ca ck er cs
def updateL : NodeList → Bool → NodeList
  | .nil, _ => .nil
  | .cons c t, v => .cons (set_checked c v) (updateL t v)
end

/-- `set_checked` applied to the node sitting at child-index path `p` inside a
larger tree (the clicked row of the model); used to state that the cascade
never touches the clicked node's ancestors. -/
def setCheckedAt (n : Node) (p : List Nat) (v : Bool) : Node :=
  match p with
  | [] => set_checked n v
  | i :: rest =>
    match n with
    | .mk nm ca ck er cs =>
      match cs.get? i with
      | none => .mk nm ca ck er cs
      | some c => .mk nm ca ck er (cs.setAt i (setCheckedAt c rest v))

/-- The node at child-index path `p`, if any. -/
def getNode? (n : Node) : List Nat → Option Node
  | [] => some n
  | i :: rest =>
    match n.children.get? i with
    | none => none
    | some c => getNode? c rest

/-! `FolderTreeView.generate_text_recursive_v2` and the row loops of
`FolderTreeView.copy_tree_to_clipboard`.

`generate_text_recursive_v2` is only ever called on rows the filter proxy
exposes; it appends `prefix + connector + item.text()` if the (source) item is
checkable and checked, then iterates the item's *proxy* child rows — i.e. its
accepted children in model order — passing `is_last_child = (row ==
num_children - 1)`; if the item is not both checkable and checked it returns
without recursing, so the whole subtree is skipped.  `genSiblings` models one
such row loop: it walks the child list in model order, skipping rows the
proxy filters out, and a processed row is the last proxy row exactly when no
later sibling is accepted.  (`output_lines` is modelled as the returned
list.) -/
mutual
def genTextV2 (q : List Char) (pre : String) (isLast : Bool) : Node → List String
  | .mk nm ca ck _ cs =>
    if ca && ck then
      (pre ++ (if isLast then "└─ " else "├─ ") ++ nm) ::
        genSiblings q (pre ++ (if isLast then "   " else "│  ")) cs
    else []
def genSiblings (q : List Char) (pre : String) : NodeList → List String
  | .nil => []
  | .cons c rest =>
    if filterAccepts q c then
      genTextV2 q pre (!(anyAccepts q rest)) c ++ genSiblings q pre rest
    else genSiblings q pre rest
end

/-- The row loop of the source, stated over the list of accepted rows it
actually iterates: row `i` of `n` rows gets `is_last = (i == n - 1)`,
equivalently a row is last exactly when no rows remain after it. -/
def genRows (q : List Char) (pre : String) : List Node → List String
  | [] => []
  | c :: rest => genTextV2 q pre rest.isEmpty c ++ genRows q pre rest

/-- `FolderTreeView.copy_tree_to_clipboard`: iterates the proxy's top-level
rows (the accepted top-level items, with `is_last` from the row index) with
an empty prefix, producing the list of emitted lines (joined with newlines
before being placed on the clipboard). -/
def copyText (query : String) (roots : NodeList) : List String :=
  genSiblings (set_filter_text query) "" roots

/-! The nodes whose own line `generate_text_recursive_v2` appends, in emission
order: a visited node is emitted iff it is checkable and checked, and only
then are its accepted children visited. -/
mutual
def emittedNodes (q : List Char) : Node → List Node
  | .mk nm ca ck er cs =>
    if ca && ck then .mk nm ca ck er cs :: emittedSib q cs else []
def emittedSib (q : List Char) : NodeList → List Node
  | .nil => []
  | .cons c rest =>
    if filterAccepts q c then emittedNodes q c ++ emittedSib q rest
    else emittedSib q rest
end

/-- A root whose metadata cannot be read (`os.stat` fails on it). -/
def fsMissing : FS := .dir "gone" false [] .ok

/-- The round-trip example directory: `a.txt` (100 bytes), `b.txt`
(2048 bytes) and `sub/` containing `c.txt`. -/
def fs4 : FS :=
  .dir "root" true
    [.file "a.txt" 100 true, .file "b.txt" 2048 true,
      .dir "sub" true [.file "c.txt" 7 true] .ok] .ok

/-- A checked, filter-visible child sitting under an unchecked subtree root. -/
def c2Child : Node := .mk "A" true true false .nil

/-- An unchecked subtree root whose only child is individually checked. -/
def c2Root : Node := .mk "R" true false false (.cons c2Child .nil)

/-- A checked sibling that is the last one actually emitted. -/
def c3A : Node := .mk "A" true true false .nil

/-- An unchecked (but filter-visible) sibling placed after `c3A`. -/
def c3B : Node := .mk "B" true false false .nil

/-- A checked parent whose visible children are `c3A` (checked) then `c3B`
(unchecked). -/
def c3Parent : Node := .mk "P" true true false (.cons c3A (.cons c3B .nil))

/-- A small tree satisfying the error-leaf invariant: a checkable root with a
non-checkable error-marker child and a checkable child. -/
def c5Tree : Node :=
  .mk "r" true true false
    (.cons (.mk "e" false false true .nil) (.cons (.mk "a" true true false .nil) .nil))

/-- The model tree the scan builds for `fs4`: the scanned root is itself a
row, and the subdirectory `sub` appears twice — once as the entry row added
by the loop in `add_folder_item_recursive` and once more as the row the
recursive call adds beneath it (see `scanEntry`). -/
def tree4 : Node :=
  .mk "root" true true false
    (.cons (.mk "sub" true true false
        (.cons (.mk "sub" true true false
            (.cons (.mk "c.txt" true true false .nil) .nil)) .nil))
      (.cons (.mk "a.txt" true true false .nil)
        (.cons (.mk "b.txt" true true false .nil) .nil)))

theorem Node.subNodes_def (nm : String) (ca ck er : Bool) (cs : NodeList) :
    (Node.mk nm ca ck er cs).subNodes = Node.mk nm ca ck er cs :: cs.subAll := by
  rw [Node.subNodes]

theorem Node.self_mem_subNodes : ∀ n : Node, n ∈ n.subNodes
  | .mk nm ca ck er cs => by rw [Node.subNodes_def]; exact List.mem_cons_self _ _

theorem containsB_empty_hay {q : List Char} (hq : q.isEmpty = false) :
    containsB q [] = false := by
  rw [containsB, hq]

theorem Node.name_mk (nm : String) (ca ck er : Bool) (cs : NodeList) :
    (Node.mk nm ca ck er cs).name = nm := rfl

theorem Node.checkable_mk (nm : String) (ca ck er : Bool) (cs : NodeList) :
    (Node.mk nm ca ck er cs).checkable = ca := rfl

theorem Node.checked_mk (nm : String) (ca ck er : Bool) (cs : NodeList) :
    (Node.mk nm ca ck er cs).checked = ck := rfl

theorem Node.err_mk (nm : String) (ca ck er : Bool) (cs : NodeList) :
    (Node.mk nm ca ck er cs).err = er := rfl

theorem Node.children_mk (nm : String) (ca ck er : Bool) (cs : NodeList) :
    (Node.mk nm ca ck er cs).children = cs := rfl

mutual
theorem filterAccepts_iff_mem (q : List Char) (hq : q.isEmpty = false) :
    ∀ n : Node, filterAccepts q n = true ↔
      ∃ m ∈ n.subNodes, containsB q (lowerStr m.name) = true
  | .mk nm ca ck er cs => by
    have ih := anyAccepts_iff_mem q hq cs
    rw [filterAccepts, Node.subNodes_def]
    simp only [hq, Bool.false_eq_true, if_false, List.mem_cons, Node.name_mk]
    by_cases hnm : nm = ""
    · subst hnm
      have hcb : containsB q (lowerStr "") = false := by
        simpa [lowerStr] using containsB_empty_hay hq
      simp only [hcb, Bool.and_false, Bool.false_eq_true, if_false, ih]
      constructor
      · rintro ⟨m, hm, hc⟩
        exact ⟨m, Or.inr hm, hc⟩
      · rintro ⟨m, rfl | hm, hc⟩
        · rw [Node.name_mk] at hc
          rw [hcb] at hc
          exact absurd hc (by simp)
        · exact ⟨m, hm, hc⟩
    · by_cases hw : containsB q (lowerStr nm) = true
      · have hcond : ((!(nm == "")) && containsB q (lowerStr nm)) = true := by
          simp [hnm, hw]
        rw [if_pos hcond]
        constructor
        · intro _
          exact ⟨Node.mk nm ca ck er cs, Or.inl rfl, by rw [Node.name_mk]; exact hw⟩
        · intro _
          rfl
      · have hcond : ((!(nm == "")) && containsB q (lowerStr nm)) = false := by
          simp [hw]
        simp only [hcond, Bool.false_eq_true, if_false, ih]
        constructor
        · rintro ⟨m, hm, hc⟩
          exact ⟨m, Or.inr hm, hc⟩
        · rintro ⟨m, rfl | hm, hc⟩
          · rw [Node.name_mk] at hc
            exact absurd hc hw
          · exact ⟨m, hm, hc⟩
theorem anyAccepts_iff_mem (q : List Char) (hq : q.isEmpty = false) :
    ∀ l : NodeList, anyAccepts q l = true ↔
      ∃ m ∈ l.subAll, containsB q (lowerStr m.name) = true
  | .nil => by simp [anyAccepts, NodeList.subAll]
  | .cons c t => by
    have ihc := filterAccepts_iff_mem q hq c
    have iht := anyAccepts_iff_mem q hq t
    rw [anyAccepts]
    simp only [NodeList.subAll, Bool.or_eq_true, ihc, iht, List.mem_append]
    constructor
    · rintro (⟨m, hm, hc⟩ | ⟨m, hm, hc⟩)
      · exact ⟨m, Or.inl hm, hc⟩
      · exact ⟨m, Or.inr hm, hc⟩
    · rintro ⟨m, hm | hm, hc⟩
      · exact Or.inl ⟨m, hm, hc⟩
      · exact Or.inr ⟨m, hm, hc⟩
end

theorem string_empty_iff_data (s : String) : s = "" ↔ s.data = [] := by
  constructor
  · intro h
    rw [h]
  · intro h
    cases s with
    | mk d =>
      have hd : d = [] := h
      rw [hd]

theorem lowerStr_nil_iff (s : String) : lowerStr s = [] ↔ s = "" := by
  rw [string_empty_iff_data, lowerStr]
  exact List.map_eq_nil_iff

mutual
theorem accepts_of_mem_accepts (q : List Char) :
    ∀ a : Node, ∀ n ∈ a.subNodes, filterAccepts q n = true → filterAccepts q a = true
  | .mk nm ca ck er cs => by
    intro n hn h
    rw [Node.subNodes_def] at hn
    rcases List.mem_cons.mp hn with rfl | hn
    · exact h
    · have := anyAccepts_of_mem_accepts q cs n hn h
      rw [filterAccepts]
      by_cases hq : q.isEmpty = true
      · simp [hq]
      · simp only [Bool.of_not_eq_true hq, if_false]
        by_cases hw : ((!(nm == "")) && containsB q (lowerStr nm)) = true
        · simp [hw]
        · simp [hw, this]
theorem anyAccepts_of_mem_accepts (q : List Char) :
    ∀ l : NodeList, ∀ n ∈ l.subAll, filterAccepts q n = true → anyAccepts q l = true
  | .nil => by intro n hn; rw [NodeList.subAll] at hn; exact absurd hn (List.not_mem_nil n)
  | .cons c t => by
    intro n hn h
    rw [NodeList.subAll] at hn
    rcases List.mem_append.mp hn with hn | hn
    · rw [anyAccepts, accepts_of_mem_accepts q c n hn h, Bool.true_or]
    · rw [anyAccepts, anyAccepts_of_mem_accepts q t n hn h, Bool.or_true]
end

theorem anyAccepts_eq_filter (q : List Char) :
    ∀ l : NodeList, anyAccepts q l = !((l.toList.filter (filterAccepts q)).isEmpty)
  | .nil => by rw [anyAccepts, NodeList.toList]; rfl
  | .cons c t => by
    have ih := anyAccepts_eq_filter q t
    rw [anyAccepts, NodeList.toList, ih]
    by_cases hc : filterAccepts q c = true
    · simp [hc, List.filter_cons]
    · simp only [Bool.not_eq_true] at hc
      simp [hc, List.filter_cons]

theorem genSiblings_eq_genRows (q : List Char) (pre : String) :
    ∀ l : NodeList, genSiblings q pre l = genRows q pre (l.toList.filter (filterAccepts q))
  | .nil => by rw [genSiblings, NodeList.toList]; rfl
  | .cons c rest => by
    have ih := genSiblings_eq_genRows q pre rest
    rw [genSiblings, NodeList.toList]
    by_cases hc : filterAccepts q c = true
    · rw [if_pos hc, List.filter_cons_of_pos hc, genRows, ih, anyAccepts_eq_filter q rest,
        Bool.not_not]
    · rw [if_neg (by simp [hc]), List.filter_cons_of_neg (by simp [hc]), ih]

mutual
theorem emittedNodes_sound (q : List Char) :
    ∀ n : Node, ∀ m ∈ emittedNodes q n,
      m ∈ n.subNodes ∧ m.checkable = true ∧ m.checked = true
  | .mk nm ca ck er cs => by
    intro m hm
    rw [emittedNodes] at hm
    by_cases hck : (ca && ck) = true
    · rw [if_pos hck] at hm
      rcases List.mem_cons.mp hm with rfl | hm
      · rcases Bool.and_eq_true_iff.mp hck with ⟨h1, h2⟩
        exact ⟨Node.self_mem_subNodes _, h1, h2⟩
      · have := emittedSib_sound q cs m hm
        exact ⟨by rw [Node.subNodes_def]; exact List.mem_cons_of_mem _ this.1,
          this.2.1, this.2.2⟩
    · rw [if_neg hck] at hm
      exact absurd hm (List.not_mem_nil m)
theorem emittedSib_sound (q : List Char) :
    ∀ l : NodeList, ∀ m ∈ emittedSib q l,
      m ∈ l.subAll ∧ m.checkable = true ∧ m.checked = true
  | .nil => by
    intro m hm
    rw [emittedSib] at hm
    exact absurd hm (List.not_mem_nil m)
  | .cons c t => by
    intro m hm
    rw [emittedSib] at hm
    rw [NodeList.subAll]
    by_cases hc : filterAccepts q c = true
    · rw [if_pos hc] at hm
      rcases List.mem_append.mp hm with hm | hm
      · have := emittedNodes_sound q c m hm
        exact ⟨List.mem_append.mpr (Or.inl this.1), this.2⟩
      · have := emittedSib_sound q t m hm
        exact ⟨List.mem_append.mpr (Or.inr this.1), this.2⟩
    · rw [if_neg hc] at hm
      have := emittedSib_sound q t m hm
      exact ⟨List.mem_append.mpr (Or.inr this.1), this.2⟩
end

mutual
theorem genTextV2_line_origin (q : List Char) :
    ∀ n : Node, ∀ pre : String, ∀ isLast : Bool, ∀ line ∈ genTextV2 q pre isLast n,
      ∃ m ∈ emittedNodes q n, ∃ p : String, line = p ++ m.name
  | .mk nm ca ck er cs => by
    intro pre isLast line hline
    rw [genTextV2] at hline
    by_cases hck : (ca && ck) = true
    · rw [if_pos hck] at hline
      rw [emittedNodes, if_pos hck]
      rcases List.mem_cons.mp hline with rfl | hline
      · exact ⟨Node.mk nm ca ck er cs, List.mem_cons_self _ _,
          pre ++ (if isLast then "└─ " else "├─ "), by rw [Node.name_mk]⟩
      · rcases genSiblings_line_origin q cs (pre ++ (if isLast then "   " else "│  ")) line hline
          with ⟨m, hm, p, hp⟩
        exact ⟨m, List.mem_cons_of_mem _ hm, p, hp⟩
    · rw [if_neg hck] at hline
      exact absurd hline (List.not_mem_nil line)
theorem genSiblings_line_origin (q : List Char) :
    ∀ l : NodeList, ∀ pre : String, ∀ line ∈ genSiblings q pre l,
      ∃ m ∈ emittedSib q l, ∃ p : String, line = p ++ m.name
  | .nil => by
    intro pre line hline
    rw [genSiblings] at hline
    exact absurd hline (List.not_mem_nil line)
  | .cons c t => by
    intro pre line hline
    rw [genSiblings] at hline
    rw [emittedSib]
    by_cases hc : filterAccepts q c = true
    · rw [if_pos hc] at hline ⊢
      rcases List.mem_append.mp hline with hline | hline
      · rcases genTextV2_line_origin q c pre (!(anyAccepts q t)) line hline with ⟨m, hm, p, hp⟩
        exact ⟨m, List.mem_append.mpr (Or.inl hm), p, hp⟩
      · rcases genSiblings_line_origin q t pre line hline with ⟨m, hm, p, hp⟩
        exact ⟨m, List.mem_append.mpr (Or.inr hm), p, hp⟩
    · rw [if_neg hc] at hline ⊢
      exact genSiblings_line_origin q t pre line hline
end

mutual
theorem addFolderItem_err_inv (e : FS) :
    ∀ m ∈ (addFolderItem e).subNodes, m.err = true → m.checkable = false := by
  rw [addFolderItem]
  by_cases hs : e.statOk = false
  · rw [if_pos hs]
    intro m hm _
    rw [Node.subNodes_def, NodeList.subAll] at hm
    rcases List.mem_cons.mp hm with rfl | hm
    · rw [Node.checkable_mk]
    · exact absurd hm (List.not_mem_nil m)
  · rw [if_neg hs]
    intro m hm her
    rw [Node.subNodes_def] at hm
    rcases List.mem_cons.mp hm with rfl | hm
    · rw [Node.err_mk] at her
      exact absurd her (by simp)
    · exact scanContents_err_inv e m hm her
termination_by (sizeOf e, 1)
decreasing_by simp_wf; omega

theorem scanContents_err_inv (e : FS) :
    ∀ m ∈ (scanContents e).subAll, m.err = true → m.checkable = false := by
  match e with
  | .file nm sz st =>
    rw [scanContents]
    intro m hm _
    simp only [NodeList.subAll, Node.subNodes_def, List.append_nil] at hm
    rcases List.mem_cons.mp hm with rfl | hm
    · rw [Node.checkable_mk]
    · exact absurd hm (List.not_mem_nil m)
  | .dir nm st entries res =>
    match res with
    | .ok =>
      rw [scanContents]
      intro m hm her
      exact scanL_err_inv (sortEntries entries) m hm her
    | .permDenied =>
      rw [scanContents]
      intro m hm _
      simp only [NodeList.subAll, Node.subNodes_def, List.append_nil] at hm
      rcases List.mem_cons.mp hm with rfl | hm
      · rw [Node.checkable_mk]
      · exact absurd hm (List.not_mem_nil m)
    | .otherError =>
      rw [scanContents]
      intro m hm _
      simp only [NodeList.subAll, Node.subNodes_def, List.append_nil] at hm
      rcases List.mem_cons.mp hm with rfl | hm
      · rw [Node.checkable_mk]
      · exact absurd hm (List.not_mem_nil m)
termination_by (sizeOf e, 0)
decreasing_by simp_wf; simp [sizeOf_sortEntries]; omega

theorem scanL_err_inv (el : List FS) :
    ∀ m ∈ (scanL el).subAll, m.err = true → m.checkable = false := by
  match el with
  | [] =>
    rw [scanL]
    intro m hm _
    rw [NodeList.subAll] at hm
    exact absurd hm (List.not_mem_nil m)
  | e :: rest =>
    rw [scanL]
    intro m hm her
    rw [NodeList.subAll] at hm
    rcases List.mem_append.mp hm with hm | hm
    · exact scanEntry_err_inv e m hm her
    · exact scanL_err_inv rest m hm her
termination_by (sizeOf el, 3)
decreasing_by
  · simp_wf
    exact Prod.Lex.left _ _ (by omega)
  · simp_wf
    exact Prod.Lex.left _ _ (by omega)

theorem scanEntry_err_inv (e : FS) :
    ∀ m ∈ (scanEntry e).subNodes, m.err = true → m.checkable = false := by
  rw [scanEntry]
  by_cases hs : e.statOk = false
  · rw [if_pos hs]
    intro m hm _
    rw [Node.subNodes_def, NodeList.subAll] at hm
    rcases List.mem_cons.mp hm with rfl | hm
    · rw [Node.checkable_mk]
    · exact absurd hm (List.not_mem_nil m)
  · rw [if_neg hs]
    by_cases hd : e.isDir = true
    · rw [if_pos hd]
      intro m hm her
      rw [Node.subNodes_def, NodeList.subAll, NodeList.subAll] at hm
      simp only [List.append_nil] at hm
      rcases List.mem_cons.mp hm with rfl | hm
      · rw [Node.err_mk] at her
        exact absurd her (by simp)
      · exact addFolderItem_err_inv e m hm her
    · rw [if_neg hd]
      intro m hm her
      rw [Node.subNodes_def, NodeList.subAll] at hm
      rcases List.mem_cons.mp hm with rfl | hm
      · rw [Node.err_mk] at her
        exact absurd her (by simp)
      · exact absurd hm (List.not_mem_nil m)
termination_by (sizeOf e, 2)
decreasing_by simp_wf; omega
end

theorem scanL_toList : ∀ el : List FS, (scanL el).toList = el.map scanEntry
  | [] => by rw [scanL, NodeList.toList]; rfl
  | e :: rest => by rw [scanL, NodeList.toList, scanL_toList rest, List.map_cons]

theorem scanL_length : ∀ el : List FS, (scanL el).length = el.length
  | [] => by rw [scanL, NodeList.length]; rfl
  | e :: rest => by rw [scanL, NodeList.length, scanL_length rest, List.length_cons]

theorem set_checked_checkable (v : Bool) : ∀ n : Node, (set_checked n v).checkable = n.checkable
  | .mk nm ca ck er cs => by
    rw [set_checked]
    by_cases hca : ca = true
    · rw [if_pos hca, Node.checkable_mk, Node.checkable_mk]
    · rw [if_neg hca]

theorem updateL_get? : ∀ (l : NodeList) (v : Bool) (i : Nat),
    (updateL l v).get? i = Option.map (fun c => set_checked c v) (l.get? i)
  | .nil, v, i => rfl
  | .cons c t, v, 0 => rfl
  | .cons c t, v, i + 1 => by
    rw [updateL, NodeList.get?, NodeList.get?, updateL_get? t v i]

theorem get?_setAt_self : ∀ (l : NodeList) (i : Nat) (c x : Node),
    l.get? i = some c → (l.setAt i x).get? i = some x
  | .nil, i, c, x => by
    intro h
    rw [NodeList.get?] at h
    exact absurd h (by simp)
  | .cons a t, 0, c, x => by
    intro _
    rfl
  | .cons a t, i + 1, c, x => by
    intro h
    rw [NodeList.get?] at h
    rw [NodeList.setAt, NodeList.get?]
    exact get?_setAt_self t i c x h

mutual
theorem set_checked_all (v : Bool) :
    ∀ n : Node, errLeafB n = true →
      ∀ m ∈ (set_checked n v).subNodes, m.checkable = true → m.checked = v
  | .mk nm ca ck er cs => by
    intro hinv m hm hca
    rw [errLeafB] at hinv
    rcases Bool.and_eq_true_iff.mp hinv with ⟨hroot, hl⟩
    rw [set_checked] at hm
    by_cases hcab : ca = true
    · rw [if_pos hcab, Node.subNodes_def] at hm
      rcases List.mem_cons.mp hm with rfl | hm
      · rw [Node.checked_mk]
      · exact updateL_all v cs hl m hm hca
    · rw [if_neg hcab] at hm
      have hcs : cs = .nil := by
        rcases Bool.or_eq_true_iff.mp hroot with h | h
        · exact absurd h hcab
        · cases cs with
          | nil => rfl
          | cons a b =>
            rw [NodeList.length] at h
            simp at h
      subst hcs
      rw [Node.subNodes_def, NodeList.subAll] at hm
      rcases List.mem_cons.mp hm with rfl | hm
      · rw [Node.checkable_mk] at hca
        exact absurd hca hcab
      · exact absurd hm (List.not_mem_nil m)
theorem updateL_all (v : Bool) :
    ∀ l : NodeList, errLeafL l = true →
      ∀ m ∈ (updateL l v).subAll, m.checkable = true → m.checked = v
  | .nil => by
    intro _ m hm _
    rw [updateL, NodeList.subAll] at hm
    exact absurd hm (List.not_mem_nil m)
  | .cons c t => by
    intro hinv m hm hca
    rw [errLeafL] at hinv
    rcases Bool.and_eq_true_iff.mp hinv with ⟨hc, ht⟩
    rw [updateL, NodeList.subAll] at hm
    rcases List.mem_append.mp hm with hm | hm
    · exact set_checked_all v c hc m hm hca
    · exact updateL_all v t ht m hm hca
end

theorem updateL_length (v : Bool) : ∀ l : NodeList, (updateL l v).length = l.length
  | .nil => rfl
  | .cons c t => by rw [updateL, NodeList.length, NodeList.length, updateL_length v t]

mutual
theorem errLeaf_set_checked (v : Bool) :
    ∀ n : Node, errLeafB n = true → errLeafB (set_checked n v) = true
  | .mk nm ca ck er cs => by
    intro hinv
    rw [set_checked]
    by_cases hca : ca = true
    · rw [errLeafB] at hinv
      rcases Bool.and_eq_true_iff.mp hinv with ⟨_, hl⟩
      rw [if_pos hca, errLeafB, hca, Bool.true_or, Bool.true_and]
      exact errLeafL_updateL v cs hl
    · rw [if_neg hca]
      exact hinv
theorem errLeafL_updateL (v : Bool) :
    ∀ l : NodeList, errLeafL l = true → errLeafL (updateL l v) = true
  | .nil => by
    intro _
    rfl
  | .cons c t => by
    intro hinv
    rw [errLeafL] at hinv
    rcases Bool.and_eq_true_iff.mp hinv with ⟨hc, ht⟩
    rw [updateL, errLeafL, errLeaf_set_checked v c hc, errLeafL_updateL v t ht]
    rfl
end

theorem getNode?_nil (n : Node) : getNode? n [] = some n := rfl

theorem getNode?_cons (nm : String) (ca ck er : Bool) (cs : NodeList) (i : Nat) (rest : List Nat) :
    getNode? (.mk nm ca ck er cs) (i :: rest) =
      match cs.get? i with
      | none => none
      | some c => getNode? c rest := by
  rw [getNode?]
  rfl

theorem setCheckedAt_cons (nm : String) (ca ck er : Bool) (cs : NodeList) (i : Nat)
    (rest : List Nat) (v : Bool) :
    setCheckedAt (.mk nm ca ck er cs) (i :: rest) v =
      match cs.get? i with
      | none => .mk nm ca ck er cs
      | some c => .mk nm ca ck er (cs.setAt i (setCheckedAt c rest v)) := by
  rw [setCheckedAt.eq_def]

theorem set_checked_skips (v : Bool) :
    ∀ (p : List Nat) (n m : Node), getNode? n p = some m → m.checkable = false →
      getNode? (set_checked n v) p = some m
  | [] => by
    intro n m hg hm
    rw [getNode?_nil] at hg
    injection hg with h
    subst h
    cases n with
    | mk nm ca ck er cs =>
      rw [Node.checkable_mk] at hm
      rw [set_checked, if_neg (by rw [hm]; exact Bool.false_ne_true), getNode?_nil]
  | i :: rest => by
    intro n m hg hm
    cases n with
    | mk nm ca ck er cs =>
      rw [getNode?_cons] at hg
      cases hc : cs.get? i with
      | none =>
        rw [hc] at hg
        exact absurd hg (by simp)
      | some c =>
        rw [hc] at hg
        rw [set_checked]
        by_cases hca : ca = true
        · rw [if_pos hca, getNode?_cons, updateL_get?, hc]
          exact set_checked_skips v rest c m hg hm
        · rw [if_neg hca, getNode?_cons, hc]
          exact hg

theorem setCheckedAt_ancestors (v : Bool) :
    ∀ (pp p : List Nat) (T : Node), pp <+: p → pp ≠ p →
      Option.map Node.checked (getNode? (setCheckedAt T p v) pp) =
        Option.map Node.checked (getNode? T pp)
  | [] => by
    intro p T _ hne
    cases p with
    | nil => exact absurd rfl hne
    | cons i rest =>
      cases T with
      | mk nm ca ck er cs =>
        rw [getNode?_nil, setCheckedAt_cons]
        cases hc : cs.get? i with
        | none => rfl
        | some c => rfl
  | j :: pp2 => by
    intro p T hpre hne
    cases p with
    | nil =>
      simp at hpre
    | cons i rest =>
      rcases List.cons_prefix_cons.mp hpre with ⟨rfl, hpre2⟩
      have hne2 : pp2 ≠ rest := by
        intro h
        exact hne (by rw [h])
      cases T with
      | mk nm ca ck er cs =>
        rw [setCheckedAt_cons]
        cases hc : cs.get? j with
        | none => rfl
        | some c =>
          show Option.map Node.checked
              (getNode? (Node.mk nm ca ck er (cs.setAt j (setCheckedAt c rest v))) (j :: pp2)) =
            Option.map Node.checked (getNode? (Node.mk nm ca ck er cs) (j :: pp2))
          rw [getNode?_cons, getNode?_cons, get?_setAt_self cs j c _ hc, hc]
          exact setCheckedAt_ancestors v pp2 rest c hpre2 hne2

theorem Node.subNodes_eq (n : Node) : n.subNodes = n :: n.properDesc := by
  cases n with
  | mk nm ca ck er cs => rw [Node.subNodes_def, Node.properDesc, Node.children_mk]

theorem entryLEb_imp {a b : FS} (h : entryLEb a b = true) :
    (a.isDir = false → b.isDir = false) ∧
      (a.isDir = b.isDir → lexLe (lowerStr a.name) (lowerStr b.name) = true) := by
  rw [entryLEb] at h
  cases ha : a.isDir <;> cases hb : b.isDir <;> rw [ha, hb] at h <;> simp_all

theorem addFolderItem_fs4 : addFolderItem fs4 = tree4 := by
  have hs : sortEntries
      [FS.file "a.txt" 100 true, FS.file "b.txt" 2048 true,
        FS.dir "sub" true [FS.file "c.txt" 7 true] ListResult.ok] =
      [FS.dir "sub" true [FS.file "c.txt" 7 true] ListResult.ok,
        FS.file "a.txt" 100 true, FS.file "b.txt" 2048 true] := rfl
  have hs2 : sortEntries [FS.file "c.txt" 7 true] = [FS.file "c.txt" 7 true] := rfl
  simp [fs4, addFolderItem, scanContents, scanL, scanEntry, FS.statOk, FS.name, FS.isDir,
    hs, hs2, tree4]

theorem set_checked_root (t : Node) (v : Bool) (h : t.checkable = true) :
    (set_checked t v).checked = v := by
  cases t with
  | mk nm ca ck er cs =>
    rw [Node.checkable_mk] at h
    rw [set_checked, if_pos h, Node.checked_mk]

/-- C1 (counterexample): scanning a root whose metadata cannot be read does
*not* fail as a whole: `populate_tree` returns success and a non-empty tree
(the `[Access Error]` marker row), because `add_folder_item_recursive`
catches the root `os.stat` failure itself. -/
theorem populate_tree_missing_root_succeeds :
    (populate_tree fsMissing).1 = true ∧ (populate_tree fsMissing).2 ≠ NodeList.nil := by
  refine ⟨rfl, ?_⟩
  rw [populate_tree]
  intro h
  exact NodeList.noConfusion h

/-- C1 (amended): a root path whose metadata cannot be read is absorbed like
any deeper failure: the scan produces a tree whose single top-level row is a
non-checkable `[Access Error]` marker and `populate_tree` reports success —
its failure branch is unreachable for filesystem errors. -/
theorem populate_tree_absorbs_root_stat_failure (e : FS) (h : e.statOk = false) :
    populate_tree e =
      (true, .cons (.mk (e.name ++ " [Access Error]") false false true .nil) .nil) := by
  rw [populate_tree, addFolderItem, if_pos h]

theorem populate_tree_absorbs_root_stat_failure_witness :
    fsMissing.statOk = false ∧
      populate_tree fsMissing =
        (true, .cons (.mk (fsMissing.name ++ " [Access Error]") false false true .nil) .nil) :=
  ⟨rfl, populate_tree_absorbs_root_stat_failure fsMissing rfl⟩

/-- C2 (counterexample): `c2Child` is individually checked and passes the
empty filter, and it is a descendant of the unchecked root `c2Root`, yet
serialization emits nothing at all: `generate_text_recursive_v2` returns
without visiting the children of a node that is not checked. -/
theorem checked_child_of_unchecked_root_not_emitted :
    c2Child.checked = true ∧ is_visible "" c2Child = true ∧
      c2Child ∈ c2Root.properDesc ∧ copyText "" (.cons c2Root .nil) = [] := by
  decide

/-- C2 (amended): the serializer reads the checked flag literally per node
but skips the *entire subtree* of any node that is not both checkable and
checked, so a checked descendant of an unchecked ancestor is never emitted;
every node that is emitted is individually checked. -/
theorem serializer_skips_unchecked_subtrees :
    (∀ (q : List Char) (pre : String) (isLast : Bool) (n : Node),
        (n.checkable && n.checked) = false → genTextV2 q pre isLast n = []) ∧
      ∀ (q : List Char) (n m : Node), m ∈ emittedNodes q n → m.checked = true := by
  constructor
  · intro q pre isLast n h
    cases n with
    | mk nm ca ck er cs =>
      rw [Node.checkable_mk, Node.checked_mk] at h
      rw [genTextV2, if_neg (by rw [h]; exact Bool.false_ne_true)]
  · intro q n m hm
    exact (emittedNodes_sound q n m hm).2.2

theorem serializer_skips_unchecked_subtrees_witness :
    genTextV2 [] "" true c2Root = [] ∧ c2Child.checked = true :=
  ⟨serializer_skips_unchecked_subtrees.1 [] "" true c2Root (by decide),
   serializer_skips_unchecked_subtrees.2 [] c2Child c2Child (by decide)⟩

/-- C3 (counterexample): with no filter, `c3A` is the last sibling that is
actually emitted (the later sibling `c3B` is unchecked and produces no
line), yet `c3A` receives the middle connector `├─ ` and no `└─ ` line for
it exists: unchecked siblings still count toward sibling lastness. -/
theorem last_emitted_sibling_gets_mid_connector :
    copyText "" (.cons c3Parent .nil) = ["└─ P", "   ├─ A"] ∧
      genTextV2 [] "   " true c3B = [] ∧
      "   └─ A" ∉ copyText "" (.cons c3Parent .nil) := by
  decide

/-- C3 (amended): sibling lastness is computed among the *filter-visible*
siblings only — a sibling row the proxy filters out does not count, but an
unchecked (yet filter-visible) sibling does: each row loop is exactly the
source's indexed loop over the accepted rows, where row `i` of `n` is last
iff `i = n - 1`, i.e. iff no accepted rows remain after it. -/
theorem lastness_among_filter_visible_siblings (q : List Char) (pre : String) :
    ∀ l : NodeList, genSiblings q pre l = genRows q pre (l.toList.filter (filterAccepts q)) :=
  genSiblings_eq_genRows q pre

/-- C4 (counterexample): the scan-then-serialize round trip on the example
directory does not produce the four claimed lines: the scanned root itself
is emitted as a line, and the subdirectory `sub` appears twice because the
entry loop adds a row for a directory entry and the recursive call adds a
second row for the same directory beneath it. -/
theorem roundtrip_example_output_differs :
    copyText "" (populate_tree fs4).2 ≠
      ["├─ sub", "│  └─ c.txt", "├─ a.txt", "└─ b.txt"] := by
  rw [populate_tree, addFolderItem_fs4]
  decide

/-- C4 (amended): scanning the example directory and serializing with
everything checked and no filter yields six lines: a line for the scanned
root, the duplicated `sub` chain, then `a.txt` and `b.txt` — still
directories-first and pre-order. -/
theorem roundtrip_example_actual_output :
    copyText "" (populate_tree fs4).2 =
      ["└─ root", "   ├─ sub", "   │  └─ sub", "   │     └─ c.txt",
        "   ├─ a.txt", "   └─ b.txt"] := by
  rw [populate_tree, addFolderItem_fs4]
  decide

/-- C5: on a tree satisfying the scanner's invariant (non-checkable error
nodes are leaves), setting a checkable node's checked state to `v` gives the
node itself and every checkable descendant `checked = v`; a non-checkable
node found at any path is left entirely untouched (it is skipped together
with its subtree); the cascade started at a path in a larger tree never
changes the checked state of any strict ancestor of that path; and
`set_checked true` followed by `set_checked false` leaves every checkable
node of the subtree unchecked. -/
theorem set_checked_cascades_to_checkable_descendants (t : Node) (v : Bool)
    (hinv : errLeafB t = true) (hca : t.checkable = true) :
    (set_checked t v).checked = v ∧
      (∀ m ∈ (set_checked t v).subNodes, m.checkable = true → m.checked = v) ∧
      (∀ (p : List Nat) (m : Node), getNode? t p = some m → m.checkable = false →
        getNode? (set_checked t v) p = some m) ∧
      (∀ (T : Node) (p pp : List Nat) (w : Bool), pp <+: p → pp ≠ p →
        Option.map Node.checked (getNode? (setCheckedAt T p w) pp) =
          Option.map Node.checked (getNode? T pp)) ∧
      ∀ m ∈ (set_checked (set_checked t true) false).subNodes,
        m.checkable = true → m.checked = false := by
  refine ⟨set_checked_root t v hca, set_checked_all v t hinv, ?_, ?_, ?_⟩
  · intro p m hg hm
    exact set_checked_skips v p t m hg hm
  · intro T p pp w h1 h2
    exact setCheckedAt_ancestors w pp p T h1 h2
  · exact set_checked_all false (set_checked t true) (errLeaf_set_checked true t hinv)

theorem set_checked_cascades_witness :
    (set_checked c5Tree false).checked = false :=
  (set_checked_cascades_to_checkable_descendants c5Tree false (by decide) (by decide)).1

/-- C6: a node is visible under a query exactly when the query is empty, or
the node's lower-cased name contains the lower-cased query as a substring,
or some descendant's name does; the filter is a pure predicate over the
tree. -/
theorem is_visible_iff_match_or_descendant_match (query : String) (n : Node) :
    is_visible query n = true ↔
      (query = "" ∨ lowerStr query <:+: lowerStr n.name ∨
        ∃ d ∈ n.properDesc, lowerStr query <:+: lowerStr d.name) := by
  rw [is_visible, set_filter_text]
  by_cases hq : query = ""
  · subst hq
    constructor
    · intro _
      exact Or.inl rfl
    · intro _
      cases n with
      | mk nm ca ck er cs => rfl
  · have hne : (lowerStr query).isEmpty = false := by
      cases hl : lowerStr query with
      | nil => exact absurd ((lowerStr_nil_iff query).mp hl) hq
      | cons a b => rfl
    rw [filterAccepts_iff_mem (lowerStr query) hne n]
    constructor
    · rintro ⟨m, hm, hc⟩
      rw [Node.subNodes_eq] at hm
      rcases List.mem_cons.mp hm with rfl | hm
      · exact Or.inr (Or.inl ((containsB_iff _ _).mp hc))
      · exact Or.inr (Or.inr ⟨m, hm, (containsB_iff _ _).mp hc⟩)
    · rintro (hq2 | hself | ⟨d, hd, hc⟩)
      · exact absurd hq2 hq
      · exact ⟨n, Node.self_mem_subNodes n, (containsB_iff _ _).mpr hself⟩
      · refine ⟨d, ?_, (containsB_iff _ _).mpr hc⟩
        rw [Node.subNodes_eq]
        exact List.mem_cons_of_mem _ hd

/-- C7: visibility is upward closed — if a node is visible under a query,
every node of which it is a proper descendant is visible as well, because
`filterAcceptsRow` accepts a row whenever any of its child rows is
accepted. -/
theorem is_visible_upward_closed (query : String) (a n : Node)
    (hdesc : n ∈ a.properDesc) (hvis : is_visible query n = true) :
    is_visible query a = true := by
  rw [is_visible] at hvis ⊢
  refine accepts_of_mem_accepts _ a n ?_ hvis
  rw [Node.subNodes_eq]
  exact List.mem_cons_of_mem _ hdesc

theorem is_visible_upward_closed_witness : is_visible "a" c2Root = true :=
  is_visible_upward_closed "a" c2Root c2Child (by decide) (by decide)

/-- C8: for a directory whose stat succeeds and whose listing succeeds, the
children of its scan row are exactly the sorted entries (one row per entry),
the sorted entries are a permutation of the scandir order, and in the sorted
order every directory precedes every non-directory while entries of the
same group are in ascending case-insensitive name order. -/
theorem scan_children_directories_first_sorted (nm : String) (l : List FS) :
    ((addFolderItem (FS.dir nm true l .ok)).children).toList =
        (sortEntries l).map scanEntry ∧
      List.Perm (sortEntries l) l ∧
      List.Pairwise (fun a b => (a.isDir = false → b.isDir = false) ∧
        (a.isDir = b.isDir → lexLe (lowerStr a.name) (lowerStr b.name) = true))
        (sortEntries l) := by
  refine ⟨?_, sortEntries_perm l, (sortEntries_pairwise l).imp (fun h => entryLEb_imp h)⟩
  rw [addFolderItem, if_neg (by rw [FS.statOk]; simp), Node.children_mk, scanContents,
    scanL_toList]

/-- C9: a directory whose stat succeeds but whose listing raises
`PermissionError` keeps its own checkable, checked row intact and gets
exactly one synthetic non-checkable error child; and the entry loop always
produces one row per listed entry, so a failing subdirectory never aborts
the scan of its siblings. -/
theorem perm_denied_listing_adds_single_error_child (nm : String) (l : List FS) :
    addFolderItem (FS.dir nm true l .permDenied) =
      Node.mk nm true true false
        (.cons (.mk "[Contents Hidden - Permission Denied]" false false true .nil) .nil) ∧
      (Node.mk "[Contents Hidden - Permission Denied]" false false true
        NodeList.nil).checkable = false ∧
      ∀ el : List FS, (scanL el).length = el.length := by
  refine ⟨?_, rfl, scanL_length⟩
  rw [addFolderItem, if_neg (by rw [FS.statOk]; simp), FS.name, scanContents]

/-- C10: every line serialized from a scanned tree comes from a node that is
checkable, checked and not an error marker (the line ends in that node's
name): emission requires checkable-and-checked, and the scan makes every
error marker non-checkable. -/
theorem serialized_lines_from_checkable_checked_nodes (e : FS) (query : String)
    (line : String) (h : line ∈ copyText query (populate_tree e).2) :
    ∃ m, m ∈ (addFolderItem e).subNodes ∧ m.checkable = true ∧ m.checked = true ∧
      m.err = false ∧ ∃ p : String, line = p ++ m.name := by
  rw [populate_tree, copyText] at h
  rcases genSiblings_line_origin (set_filter_text query) (.cons (addFolderItem e) .nil) "" line h
    with ⟨m, hm, p, hp⟩
  have hs := emittedSib_sound (set_filter_text query) (.cons (addFolderItem e) .nil) m hm
  have hmem : m ∈ (addFolderItem e).subNodes := by
    have h2 := hs.1
    rw [NodeList.subAll, NodeList.subAll, List.append_nil] at h2
    exact h2
  have herr : m.err = false := by
    cases he : m.err
    · rfl
    · have h3 := addFolderItem_err_inv e m hmem he
      rw [hs.2.1] at h3
      exact absurd h3 (by simp)
  exact ⟨m, hmem, hs.2.1, hs.2.2, herr, p, hp⟩

theorem serialized_lines_witness :
    ∃ m, m ∈ (addFolderItem fs4).subNodes ∧ m.checkable = true ∧ m.checked = true ∧
      m.err = false ∧ ∃ p : String, "└─ root" = p ++ m.name :=
  serialized_lines_from_checkable_checked_nodes fs4 "" "└─ root"
    (by rw [populate_tree, addFolderItem_fs4]; decide)
